import Mathlib

/-!
# I_Watch_Face: the battery bar and the clock strings of `src/main.c`

A shallow embedding of the two update procedures of the watchface:

* `update_battery`, the layer update procedure that turns the stored battery
  level and the layer bounds into two rectangle fills;
* `update_time`, which formats the broken-down local time into the time and
  the date text.

C `int` values are mathematical integers.  C `float` values are the rationals
they denote; every `float` operation is the exact operation followed by
`f32_round`, rounding to the nearest IEEE-754 binary32 value with ties to the
even significand.  The types of `pebble.h` are not in the sources: the fields
of a rectangle are `int16_t`, so a layer width ranges over `int16_t` (the
bound `INT16_MAX` in the statements about widths) and `GRect(x, y, w, h)`
narrows its `int` arguments to that type.
-/

namespace IWatchFace

/-! ## Single precision arithmetic -/

/-- Nearest integer to `x`; a tie goes to the even neighbour. -/
def roundHalfEven (x : ℚ) : ℤ :=
  let f := ⌊x⌋
  let r := x - f
  if r < 1 / 2 then f
  else if 1 / 2 < r then f + 1
  else if f % 2 = 0 then f else f + 1

/-- Binary exponent that fixes the spacing of binary32 values around `x`:
`⌊log₂ |x|⌋`, but never below the exponent `-126` of the smallest normal
number (below it the subnormal spacing `2 ^ (-149)` applies). -/
def f32_exponent (x : ℚ) : ℤ := max (Int.log 2 |x|) (-126)

/-- Spacing of binary32 values in the binade of `x` (24 significand bits). -/
def f32_ulp (x : ℚ) : ℚ := (2 : ℚ) ^ (f32_exponent x - 23)

/-- Round to nearest binary32 value, ties to even.  Overflow to infinity
(magnitudes from `2 ^ 128` on) is outside the model: the operands of
`update_battery` are an `int` quotient by 100 and a layer width, far below. -/
def f32_round (x : ℚ) : ℚ := roundHalfEven (x / f32_ulp x) * f32_ulp x

/-- The conversion `(float)n` of an integer. -/
def int_to_float (n : ℤ) : ℚ := f32_round n

/-- Single precision division `a / b`. -/
def f32_div (a b : ℚ) : ℚ := f32_round (a / b)

/-- Single precision product `a * b`. -/
def f32_mul (a b : ℚ) : ℚ := f32_round (a * b)

/-- The conversion `(int)x` of a `float`: the fractional part is discarded
(truncation toward zero).  C defines it when the result fits `int`. -/
def c_float_to_int (x : ℚ) : ℤ := if 0 ≤ x then ⌊x⌋ else ⌈x⌉

/-! ## Graphics types of the platform header -/

/-- The named colours `main.c` refers to. -/
inductive GColor where
  | GColorClear
  | GColorRed
  | GColorWhite
  | GColorBlueMoon
  deriving DecidableEq, Repr

/-- Corner masks; `main.c` only uses `GCornerNone`. -/
inductive GCornerMask where
  | GCornerNone
  deriving DecidableEq, Repr

/-- A point of the layer coordinate system. -/
structure GPoint where
  x : ℤ
  y : ℤ
  deriving DecidableEq, Repr

/-- A width and a height. -/
structure GSize where
  w : ℤ
  h : ℤ
  deriving DecidableEq, Repr

/-- A rectangle: origin and size, as built by `GRect(x, y, w, h)`. -/
structure GRect where
  origin : GPoint
  size : GSize
  deriving DecidableEq, Repr

/-- Upper end of the range of a layer width (`int16_t` in the platform's
`GSize`). -/
def INT16_MAX : ℤ := 32767

/-- Membership in the range of `int16_t`, the type of the four fields of a
rectangle. -/
def is_int16 (x : ℤ) : Prop := -32768 ≤ x ∧ x ≤ 32767

instance (x : ℤ) : Decidable (is_int16 x) := by
  unfold is_int16
  infer_instance

/-- Conversion of an `int` to `int16_t`: the value is kept when it is in
range and reduced modulo `2 ^ 16` otherwise. -/
def to_int16 (x : ℤ) : ℤ := (x + 32768) % 65536 - 32768

/-- The constructor macro `GRect(x, y, w, h)`: the four `int` arguments are
stored in `int16_t` fields. -/
def GRect.make (x y w h : ℤ) : GRect :=
  { origin := { x := to_int16 x, y := to_int16 y },
    size := { w := to_int16 w, h := to_int16 h } }

/-- The calls `update_battery` makes on its graphics context. -/
inductive GCall where
  | graphics_context_set_fill_color (color : GColor)
  | graphics_fill_rect (rect : GRect) (corner_radius : ℕ) (corner_mask : GCornerMask)
  deriving DecidableEq, Repr

/-- Rectangles filled by a sequence of context calls, each with the fill
colour in force when it is drawn (`none` before any colour is set). -/
def filled_rects : Option GColor → List GCall → List (GRect × Option GColor)
  | _, [] => []
  | _, GCall.graphics_context_set_fill_color c :: rest => filled_rects (some c) rest
  | cur, GCall.graphics_fill_rect r _ _ :: rest => (r, cur) :: filled_rects cur rest

/-! ## Program state -/

/-- The file-scope variables of `main.c` that the update procedures read. -/
structure AppState where
  s_background_color : GColor
  s_element_color : GColor
  s_battery_level : ℤ
  deriving DecidableEq, Repr

/-- The argument of the battery state handler. -/
structure BatteryChargeState where
  charge_percent : ℕ
  deriving DecidableEq, Repr

/-- State after `init` has set the colour scheme (the battery level still
holds its static initial value). -/
def init : AppState :=
  { s_background_color := GColor.GColorBlueMoon
    s_element_color := GColor.GColorWhite
    s_battery_level := 0 }

/-- The handler `battery_callback`: captures the reported charge. -/
def battery_callback (s : AppState) (state : BatteryChargeState) : AppState :=
  { s with s_battery_level := state.charge_percent }

/-! ## The battery bar -/

/-- Local variables of `update_battery` once the bar colour is chosen. -/
structure BatteryBar where
  width : ℤ
  xCoord : ℤ
  batteryMeterColor : GColor
  deriving DecidableEq, Repr

/-- Width of the remaining battery bar:
`(int)(float)(((float)s_battery_level / 100.0F) * bounds.size.w)`. -/
def bar_width (s_battery_level w : ℤ) : ℤ :=
  c_float_to_int
    (f32_mul (f32_div (int_to_float s_battery_level) 100) (int_to_float w))

/-- The three locals of `update_battery`. -/
def battery_bar (s : AppState) (bounds : GRect) : BatteryBar :=
  let width := bar_width s.s_battery_level bounds.size.w
  let xCoord := (bounds.size.w - width).tdiv 2
  let batteryMeterColor :=
    if width ≤ 20 then GColor.GColorRed else s.s_element_color
  { width := width, xCoord := xCoord, batteryMeterColor := batteryMeterColor }

/-- The layer update procedure `update_battery`, as the sequence of calls it
makes on the graphics context. -/
def update_battery (s : AppState) (bounds : GRect) : List GCall :=
  let bar := battery_bar s bounds
  [ GCall.graphics_context_set_fill_color s.s_background_color,
    GCall.graphics_fill_rect bounds 0 GCornerMask.GCornerNone,
    GCall.graphics_context_set_fill_color bar.batteryMeterColor,
    GCall.graphics_fill_rect (GRect.make bar.xCoord 0 bar.width bounds.size.h)
      0 GCornerMask.GCornerNone ]

/-! ## The clock strings -/

/-- The fields of the broken-down time `struct tm` that `update_time` formats:
minutes `0..59`, hours `0..23`, day of the month `1..31`, months since January
`0..11`. -/
structure Tm where
  tm_min : ℕ
  tm_hour : ℕ
  tm_mday : ℕ
  tm_mon : ℕ
  deriving DecidableEq, Repr

/-- Modelled from the spec: a number as the C library prints a two-digit
zero-padded field, in decimal with at least two digits, a zero in front of a
single digit. -/
def two_digits (n : ℕ) : List Char :=
  if n < 10 then ['0', Nat.digitChar n] else Nat.toDigits 10 n

/-- Modelled from the spec: the C library routine behind one conversion
specifier of `strftime` is not part of the sources.  The specifiers of
`update_time` are covered: `%H` hour of the 24-hour clock, `%I` hour of the
12-hour clock, `%M` minute, `%m` month number, `%d` day of the month, all as
two digits, and `%%`. -/
def strftime_conversion (c : Char) (tm : Tm) : List Char :=
  if c = 'H' then two_digits tm.tm_hour
  else if c = 'I' then two_digits (if tm.tm_hour % 12 = 0 then 12 else tm.tm_hour % 12)
  else if c = 'M' then two_digits tm.tm_min
  else if c = 'm' then two_digits (tm.tm_mon + 1)
  else if c = 'd' then two_digits tm.tm_mday
  else if c = '%' then ['%']
  else []

/-- Modelled from the spec: expansion of a `strftime` format, ordinary
characters copied and each `%x` replaced by its conversion. -/
def strftime_expand : List Char → Tm → List Char
  | [], _ => []
  | [c], _ => [c]
  | c :: d :: rest, tm =>
    if c = '%' then strftime_conversion d tm ++ strftime_expand rest tm
    else c :: strftime_expand (d :: rest) tm

/-- Modelled from the spec: the C library `strftime(s, maxsize, format, tm)`
is not part of the sources.  The text is stored when it fits `maxsize` bytes
together with its terminator; otherwise nothing usable is stored (`none`). -/
def strftime (maxsize : ℕ) (format : List Char) (tm : Tm) : Option (List Char) :=
  let text := strftime_expand format tm
  if text.length + 1 ≤ maxsize then some text else none

/-- Size of `time_buffer` in `update_time`. -/
def time_buffer_size : ℕ := 8

/-- Size of `date_buffer` in `update_time`. -/
def date_buffer_size : ℕ := 16

/-- The two texts `update_time` hands to the text layers. -/
structure ClockTexts where
  time_buffer : Option (List Char)
  date_buffer : Option (List Char)
  deriving DecidableEq, Repr

/-- The procedure `update_time`, from the broken-down local time and the
answer of `clock_is_24h_style()`. -/
def update_time (clock_is_24h_style : Bool) (tick_time : Tm) : ClockTexts :=
  { time_buffer :=
      strftime time_buffer_size
        (if clock_is_24h_style then ['%', 'H', ':', '%', 'M'] else ['%', 'I', ':', '%', 'M'])
        tick_time
    date_buffer := strftime date_buffer_size ['%', 'm', ' ', ' ', '%', 'd'] tick_time }

/-- The decimal numeral of `n`, padded on the left with zeros to two
characters: what the specification calls two-digit zero-padded. -/
def zero_padded_two (n : ℕ) : List Char := List.leftpad 2 '0' (Nat.toDigits 10 n)

/-- A decimal numeral of `n` in which one leading zero is allowed. -/
def is_numeral_of (s : List Char) (n : ℕ) : Prop :=
  s = Nat.toDigits 10 n ∨ s = '0' :: Nat.toDigits 10 n

instance (s : List Char) (n : ℕ) : Decidable (is_numeral_of s n) := by
  unfold is_numeral_of
  infer_instance

/-! ## Rounding lemmas -/

theorem roundHalfEven_le_of_le {x : ℚ} {k : ℤ} (h : x ≤ k) : roundHalfEven x ≤ k := by
  have hf : ⌊x⌋ ≤ k := by
    have := Int.floor_le_floor h
    simpa using this
  unfold roundHalfEven
  simp only
  have hfx : (⌊x⌋ : ℚ) ≤ x := Int.floor_le x
  by_cases h1 : x - ⌊x⌋ < 1 / 2
  · rw [if_pos h1]; exact hf
  · have hlt : ⌊x⌋ < k := by
      have : (⌊x⌋ : ℚ) < k := by push_neg at h1; linarith
      exact_mod_cast this
    rw [if_neg h1]
    split_ifs <;> omega

theorem le_roundHalfEven_of_le {x : ℚ} {k : ℤ} (h : (k : ℚ) ≤ x) : k ≤ roundHalfEven x := by
  have hf : k ≤ ⌊x⌋ := Int.le_floor.mpr h
  unfold roundHalfEven
  simp only
  split_ifs <;> omega

theorem abs_roundHalfEven_sub_le (x : ℚ) : |(roundHalfEven x : ℚ) - x| ≤ 1 / 2 := by
  have h1 : (⌊x⌋ : ℚ) ≤ x := Int.floor_le x
  have h2 : x < ⌊x⌋ + 1 := Int.lt_floor_add_one x
  unfold roundHalfEven
  simp only
  rw [abs_le]
  split_ifs with a b c
  · constructor <;> linarith
  · push_cast; constructor <;> linarith
  · constructor <;> linarith
  · push_cast; constructor <;> linarith

theorem f32_ulp_pos (x : ℚ) : 0 < f32_ulp x := by
  unfold f32_ulp
  positivity

theorem f32_exponent_le {x : ℚ} (hx : |x| < 2 ^ 24) : f32_exponent x ≤ 23 := by
  unfold f32_exponent
  apply max_le _ (by norm_num)
  rcases eq_or_lt_of_le (abs_nonneg x) with h0 | hpos
  · rw [← h0, Int.log_of_right_le_zero 2 le_rfl]; norm_num
  · have h : Int.log 2 |x| < 24 := by
      rw [← Int.lt_zpow_iff_log_lt (by norm_num) hpos]
      have h24 : ((2 : ℕ) : ℚ) ^ (24 : ℤ) = 2 ^ 24 := by norm_num
      rw [h24]; exact hx
    omega

/-- Below `2 ^ 24` the spacing of binary32 values is `1 / 2 ^ n`, so every
integer is a multiple of it. -/
theorem f32_ulp_eq_inv_pow {x : ℚ} (hx : |x| < 2 ^ 24) :
    ∃ n : ℕ, f32_ulp x = ((2 : ℚ) ^ n)⁻¹ := by
  have he := f32_exponent_le hx
  refine ⟨(23 - f32_exponent x).toNat, ?_⟩
  unfold f32_ulp
  rw [← zpow_natCast, ← zpow_neg, Int.toNat_of_nonneg (by omega)]
  congr 1
  ring

theorem f32_round_le_of_le_int {x : ℚ} {k : ℤ} (hx : |x| < 2 ^ 24) (h : x ≤ k) :
    f32_round x ≤ k := by
  obtain ⟨n, hn⟩ := f32_ulp_eq_inv_pow hx
  have hq := f32_ulp_pos x
  unfold f32_round
  rw [hn] at hq ⊢
  have hp : (0 : ℚ) < 2 ^ n := by positivity
  have hk : x / ((2 : ℚ) ^ n)⁻¹ ≤ ((k * 2 ^ n : ℤ) : ℚ) := by
    rw [div_inv_eq_mul]
    push_cast
    exact mul_le_mul_of_nonneg_right h hp.le
  have := roundHalfEven_le_of_le hk
  have h2 : ((roundHalfEven (x / ((2 : ℚ) ^ n)⁻¹) : ℤ) : ℚ) ≤ ((k * 2 ^ n : ℤ) : ℚ) := by
    exact_mod_cast this
  push_cast at h2
  rw [mul_inv_le_iff₀ hp]
  exact h2

theorem le_f32_round_of_int_le {x : ℚ} {k : ℤ} (hx : |x| < 2 ^ 24) (h : (k : ℚ) ≤ x) :
    (k : ℚ) ≤ f32_round x := by
  obtain ⟨n, hn⟩ := f32_ulp_eq_inv_pow hx
  unfold f32_round
  rw [hn]
  have hp : (0 : ℚ) < 2 ^ n := by positivity
  have hk : ((k * 2 ^ n : ℤ) : ℚ) ≤ x / ((2 : ℚ) ^ n)⁻¹ := by
    rw [div_inv_eq_mul]
    push_cast
    exact mul_le_mul_of_nonneg_right h hp.le
  have := le_roundHalfEven_of_le hk
  have h2 : ((k * 2 ^ n : ℤ) : ℚ) ≤ ((roundHalfEven (x / ((2 : ℚ) ^ n)⁻¹) : ℤ) : ℚ) := by
    exact_mod_cast this
  push_cast at h2
  rw [le_mul_inv_iff₀ hp]
  exact h2

/-- Integers of magnitude below `2 ^ 24` are binary32 values. -/
theorem f32_round_intCast {k : ℤ} (hk : |(k : ℚ)| < 2 ^ 24) : f32_round k = k :=
  le_antisymm (f32_round_le_of_le_int hk le_rfl) (le_f32_round_of_int_le hk le_rfl)

theorem f32_round_nonneg {x : ℚ} (hx : 0 ≤ x) : 0 ≤ f32_round x := by
  unfold f32_round
  have hq := f32_ulp_pos x
  have h0 : ((0 : ℤ) : ℚ) ≤ x / f32_ulp x := by
    simpa using div_nonneg hx hq.le
  have : (0 : ℤ) ≤ roundHalfEven (x / f32_ulp x) := le_roundHalfEven_of_le h0
  have h2 : (0 : ℚ) ≤ roundHalfEven (x / f32_ulp x) := by exact_mod_cast this
  exact mul_nonneg h2 hq.le

theorem f32_round_nonpos {x : ℚ} (hx : x ≤ 0) : f32_round x ≤ 0 := by
  unfold f32_round
  have hq := f32_ulp_pos x
  have h0 : x / f32_ulp x ≤ ((0 : ℤ) : ℚ) := by
    simpa using div_nonpos_of_nonpos_of_nonneg hx hq.le
  have : roundHalfEven (x / f32_ulp x) ≤ (0 : ℤ) := roundHalfEven_le_of_le h0
  have h2 : (roundHalfEven (x / f32_ulp x) : ℚ) ≤ 0 := by exact_mod_cast this
  exact mul_nonpos_of_nonpos_of_nonneg h2 hq.le

theorem f32_exponent_eq_log {x : ℚ} (hx : (2 : ℚ) ^ (-126 : ℤ) ≤ |x|) :
    f32_exponent x = Int.log 2 |x| := by
  unfold f32_exponent
  apply max_eq_left
  have hpos : 0 < |x| := lt_of_lt_of_le (by positivity) hx
  rw [← Int.zpow_le_iff_le_log (by norm_num) hpos]
  simpa using hx

theorem zpow_f32_exponent_le {x : ℚ} (hx : (2 : ℚ) ^ (-126 : ℤ) ≤ |x|) :
    (2 : ℚ) ^ f32_exponent x ≤ |x| := by
  rw [f32_exponent_eq_log hx]
  have hpos : 0 < |x| := lt_of_lt_of_le (by positivity) hx
  simpa using Int.zpow_log_le_self (R := ℚ) (b := 2) (by norm_num) hpos

/-- In the normal range the spacing is at most `2 ^ (-23)` times the value. -/
theorem f32_ulp_le {x : ℚ} (hx : (2 : ℚ) ^ (-126 : ℤ) ≤ |x|) :
    f32_ulp x ≤ |x| / 2 ^ 23 := by
  unfold f32_ulp
  rw [zpow_sub₀ (by norm_num), le_div_iff₀ (by positivity)]
  have h := zpow_f32_exponent_le hx
  have h23 : (2 : ℚ) ^ (23 : ℤ) = 2 ^ 23 := by norm_num
  rw [h23, div_mul_cancel₀ _ (by positivity)]
  exact h

theorem abs_f32_round_sub_le_ulp (x : ℚ) : |f32_round x - x| ≤ f32_ulp x / 2 := by
  have hq := f32_ulp_pos x
  have h := abs_roundHalfEven_sub_le (x / f32_ulp x)
  unfold f32_round
  have e : (roundHalfEven (x / f32_ulp x) : ℚ) * f32_ulp x - x
      = ((roundHalfEven (x / f32_ulp x) : ℚ) - x / f32_ulp x) * f32_ulp x := by
    field_simp
  rw [e, abs_mul, abs_of_pos hq]
  calc |(roundHalfEven (x / f32_ulp x) : ℚ) - x / f32_ulp x| * f32_ulp x
      ≤ 1 / 2 * f32_ulp x := mul_le_mul_of_nonneg_right h hq.le
    _ = f32_ulp x / 2 := by ring

/-- Relative error of one rounding in the normal range: at most `2 ^ (-24)`. -/
theorem abs_f32_round_sub_le {x : ℚ} (hx : (2 : ℚ) ^ (-126 : ℤ) ≤ |x|) :
    |f32_round x - x| ≤ |x| / 2 ^ 24 := by
  have h1 := abs_f32_round_sub_le_ulp x
  have h2 := f32_ulp_le hx
  calc |f32_round x - x| ≤ f32_ulp x / 2 := h1
    _ ≤ |x| / 2 ^ 23 / 2 := by linarith
    _ = |x| / 2 ^ 24 := by ring

/-- From `1` on, rounding does not fall below the power of two under `x`. -/
theorem zpow_log_le_f32_round {x : ℚ} (hx : 1 ≤ x) :
    (2 : ℚ) ^ Int.log 2 x ≤ f32_round x := by
  have hax : |x| = x := abs_of_nonneg (by linarith)
  have h126 : (2 : ℚ) ^ (-126 : ℤ) ≤ |x| := by
    rw [hax]
    refine le_trans ?_ hx
    exact zpow_le_one_of_nonpos₀ (by norm_num) (by norm_num)
  have he := f32_exponent_eq_log h126
  have hle := zpow_f32_exponent_le h126
  rw [hax] at he hle
  unfold f32_round f32_ulp
  rw [he]
  set e := Int.log 2 x with hedef
  have hq : (0 : ℚ) < 2 ^ (e - 23) := by positivity
  have hk : (((2 : ℤ) ^ 23 : ℤ) : ℚ) ≤ x / 2 ^ (e - 23) := by
    rw [le_div_iff₀ hq]
    have : ((((2 : ℤ) ^ 23 : ℤ) : ℚ)) * 2 ^ (e - 23) = 2 ^ e := by
      rw [zpow_sub₀ (by norm_num)]
      have h23 : (2 : ℚ) ^ (23 : ℤ) = 2 ^ 23 := by norm_num
      rw [h23]
      push_cast
      field_simp
      norm_num
      ring
    rw [this, ← he]; exact hle
  have := le_roundHalfEven_of_le hk
  have h2 : (((2 : ℤ) ^ 23 : ℤ) : ℚ) ≤ (roundHalfEven (x / 2 ^ (e - 23)) : ℚ) := by
    exact_mod_cast this
  have h3 : (2 : ℚ) ^ e = 2 ^ 23 * 2 ^ (e - 23) := by
    rw [zpow_sub₀ (by norm_num)]
    have h23 : (2 : ℚ) ^ (23 : ℤ) = 2 ^ 23 := by norm_num
    rw [h23]
    field_simp
  rw [h3]
  push_cast at h2
  exact mul_le_mul_of_nonneg_right h2 hq.le

/-- Rounding a non-negative value never falls below an integer under it that
is smaller than `2 ^ 24`. -/
theorem le_f32_round_of_le {x : ℚ} {k : ℤ} (h0 : 0 ≤ x) (hk : (k : ℚ) < 2 ^ 24)
    (h : (k : ℚ) ≤ x) : (k : ℚ) ≤ f32_round x := by
  rcases lt_or_le x (2 ^ 24) with hb | hb
  · exact le_f32_round_of_int_le (abs_lt.mpr ⟨by linarith, hb⟩) h
  · have h1 : (1 : ℚ) ≤ x := by linarith
    have h2 := zpow_log_le_f32_round h1
    have h24 : ((2 : ℕ) : ℚ) ^ (24 : ℤ) = 2 ^ 24 := by norm_num
    have h3 : (24 : ℤ) ≤ Int.log 2 x := by
      rw [← Int.zpow_le_iff_le_log (by norm_num) (by linarith), h24]
      exact hb
    have h4 : (2 : ℚ) ^ (24 : ℤ) ≤ 2 ^ Int.log 2 x :=
      zpow_le_zpow_right₀ (by norm_num) h3
    have h24b : (2 : ℚ) ^ (24 : ℤ) = 2 ^ 24 := by norm_num
    linarith

/-! ## The width computation of `update_battery` -/

theorem int_to_float_eq {n : ℤ} (h1 : -16777216 < n) (h2 : n < 16777216) :
    int_to_float n = n := by
  unfold int_to_float
  apply f32_round_intCast
  rw [abs_lt]
  constructor
  · have : ((-16777216 : ℤ) : ℚ) < n := by exact_mod_cast h1
    norm_num at this ⊢; linarith
  · have : (n : ℚ) < ((16777216 : ℤ) : ℚ) := by exact_mod_cast h2
    norm_num at this ⊢; linarith

/-- The single precision quotient `(float)p / 100.0F` for a level in range. -/
theorem quotient_bounds {p : ℤ} (hp0 : 0 ≤ p) (hp : p ≤ 100) :
    0 ≤ f32_div (int_to_float p) 100 ∧ f32_div (int_to_float p) 100 ≤ 1 := by
  rw [int_to_float_eq (by omega) (by omega)]
  unfold f32_div
  have h0 : (0 : ℚ) ≤ p := by exact_mod_cast hp0
  have h1 : (p : ℚ) ≤ 100 := by exact_mod_cast hp
  have hq0 : (0 : ℚ) ≤ p / 100 := by positivity
  have hq1 : (p : ℚ) / 100 ≤ ((1 : ℤ) : ℚ) := by
    rw [div_le_iff₀ (by norm_num)]; push_cast; linarith
  refine ⟨f32_round_nonneg hq0, ?_⟩
  have := f32_round_le_of_le_int (x := (p : ℚ) / 100) (k := 1) ?_ hq1
  · simpa using this
  · rw [abs_of_nonneg hq0]
    have : (p : ℚ) / 100 ≤ 1 := by simpa using hq1
    linarith [show (1 : ℚ) < 2 ^ 24 by norm_num]

theorem floor_nonneg_le {v : ℚ} {W : ℤ} (h0 : 0 ≤ v) (h1 : v ≤ W) :
    0 ≤ c_float_to_int v ∧ c_float_to_int v ≤ W := by
  unfold c_float_to_int
  rw [if_pos h0]
  refine ⟨Int.floor_nonneg.mpr h0, ?_⟩
  have := Int.floor_le_floor h1
  simpa using this

/-- For a level in `0..100` the bar is no wider than the layer. -/
theorem bar_width_bounds {p W : ℤ} (hp0 : 0 ≤ p) (hp : p ≤ 100) (hW0 : 0 ≤ W)
    (hW : W ≤ INT16_MAX) : 0 ≤ bar_width p W ∧ bar_width p W ≤ W := by
  unfold INT16_MAX at hW
  obtain ⟨hc0, hc1⟩ := quotient_bounds hp0 hp
  unfold bar_width
  rw [int_to_float_eq (n := W) (by omega) (by omega)]
  set c := f32_div (int_to_float p) 100 with hc
  have hw0 : (0 : ℚ) ≤ W := by exact_mod_cast hW0
  have hw1 : (W : ℚ) ≤ 32767 := by exact_mod_cast hW
  have hx0 : 0 ≤ c * W := mul_nonneg hc0 hw0
  have hx1 : c * W ≤ W := by nlinarith
  apply floor_nonneg_le
  · exact f32_round_nonneg hx0
  · unfold f32_mul
    apply f32_round_le_of_le_int _ hx1
    rw [abs_of_nonneg hx0]
    linarith [show (32767 : ℚ) < 2 ^ 24 by norm_num]

theorem f32_round_zero : f32_round 0 = 0 := by
  have := f32_round_intCast (k := 0) (by norm_num)
  simpa using this

theorem c_float_to_int_intCast (k : ℤ) : c_float_to_int (k : ℚ) = k := by
  unfold c_float_to_int
  split_ifs <;> simp

theorem bar_width_zero_level (W : ℤ) : bar_width 0 W = 0 := by
  unfold bar_width
  rw [int_to_float_eq (n := 0) (by norm_num) (by norm_num)]
  unfold f32_div f32_mul
  have h := c_float_to_int_intCast 0
  simp only [Int.cast_zero, zero_div, f32_round_zero, zero_mul] at h ⊢
  exact h

theorem bar_width_zero_width (p : ℤ) : bar_width p 0 = 0 := by
  unfold bar_width
  rw [int_to_float_eq (n := 0) (by norm_num) (by norm_num)]
  unfold f32_mul
  have h := c_float_to_int_intCast 0
  simp only [Int.cast_zero, mul_zero, f32_round_zero] at h ⊢
  exact h

theorem bar_width_full_level {W : ℤ} (hW0 : 0 ≤ W) (hW : W ≤ INT16_MAX) :
    bar_width 100 W = W := by
  unfold INT16_MAX at hW
  unfold bar_width
  rw [int_to_float_eq (n := 100) (by norm_num) (by norm_num),
    int_to_float_eq (n := W) (by omega) (by omega)]
  unfold f32_div f32_mul
  have h1 : f32_round (((100 : ℤ) : ℚ) / 100) = 1 := by
    have := f32_round_intCast (k := 1) (by norm_num)
    simpa using this
  have h2 : f32_round (W : ℚ) = W := int_to_float_eq (n := W) (by omega) (by omega)
  rw [h1, one_mul, h2]
  exact c_float_to_int_intCast W

/-- Two roundings move the product by less than a hundredth of a pixel. -/
theorem product_error {p W : ℤ} (hp0 : 0 < p) (hp : p ≤ 100) (hW0 : 0 < W)
    (hW : W ≤ INT16_MAX) :
    |f32_mul (f32_div (int_to_float p) 100) (int_to_float W) - (p : ℚ) * W / 100|
      < 1 / 100 := by
  obtain ⟨hc0, hc1⟩ := quotient_bounds hp0.le hp
  unfold INT16_MAX at hW
  rw [int_to_float_eq (n := W) (by omega) (by omega)]
  have hcdef : f32_div (int_to_float p) 100 = f32_round ((p : ℚ) / 100) := by
    rw [int_to_float_eq (by omega) (by omega)]; rfl
  rw [hcdef] at hc0 hc1 ⊢
  set c := f32_round ((p : ℚ) / 100) with hc
  have hp1 : (1 : ℚ) ≤ p := by exact_mod_cast hp0
  have hp2 : (p : ℚ) ≤ 100 := by exact_mod_cast hp
  have hw1 : (1 : ℚ) ≤ W := by exact_mod_cast hW0
  have hw2 : (W : ℚ) ≤ 32767 := by exact_mod_cast hW
  have hx1 : (0 : ℚ) < p / 100 := by positivity
  have hsmall : (2 : ℚ) ^ (-126 : ℤ) ≤ 1 / 200 := by
    rw [zpow_neg, inv_eq_one_div, div_le_div_iff₀ (by positivity) (by norm_num)]
    norm_num
  -- first rounding
  have e1 : |c - p / 100| ≤ p / 100 / 2 ^ 24 := by
    have h := abs_f32_round_sub_le (x := (p : ℚ) / 100) ?_
    · rwa [abs_of_pos hx1] at h
    · rw [abs_of_pos hx1]
      have : (1 : ℚ) / 200 ≤ p / 100 := by
        rw [div_le_div_iff₀ (by norm_num) (by norm_num)]; linarith
      exact le_trans hsmall this
  have e1a := (abs_le.mp e1).1
  have e1b := (abs_le.mp e1).2
  have hcl : (1 : ℚ) / 200 ≤ c := by
    have h24 : (p : ℚ) / 100 / 2 ^ 24 ≤ p / 100 / 2 := by
      apply div_le_div_of_nonneg_left hx1.le (by norm_num) (by norm_num)
    have : (1 : ℚ) / 100 ≤ p / 100 := by
      rw [div_le_div_iff₀ (by norm_num) (by norm_num)]; linarith
    linarith
  -- second rounding
  have hx2 : (0 : ℚ) < c * W := by nlinarith
  have hx2u : c * W ≤ W := by nlinarith
  have e2 : |f32_mul c W - c * W| ≤ c * W / 2 ^ 24 := by
    have h := abs_f32_round_sub_le (x := c * W) ?_
    · rwa [abs_of_pos hx2] at h
    · rw [abs_of_pos hx2]
      have : (1 : ℚ) / 200 ≤ c * W := by nlinarith
      exact le_trans hsmall this
  have e2a := (abs_le.mp e2).1
  have e2b := (abs_le.mp e2).2
  have hW24 : (W : ℚ) / 2 ^ 24 ≤ 32767 / 2 ^ 24 :=
    div_le_div_of_nonneg_right hw2 (by positivity)
  have hcW : c * W / 2 ^ 24 ≤ W / 2 ^ 24 :=
    div_le_div_of_nonneg_right hx2u (by positivity)
  have hpW : (p : ℚ) / 100 / 2 ^ 24 * W ≤ W / 2 ^ 24 := by
    have : (p : ℚ) / 100 ≤ 1 := by
      rw [div_le_one (by norm_num)]; exact hp2
    have h3 : (p : ℚ) / 100 / 2 ^ 24 * W = p / 100 * (W / 2 ^ 24) := by ring
    rw [h3]
    have hWnn : (0 : ℚ) ≤ W / 2 ^ 24 := by positivity
    nlinarith
  have hsplit : (p : ℚ) * W / 100 = p / 100 * W := by ring
  have d1 : c * W - p / 100 * W ≤ p / 100 / 2 ^ 24 * W := by nlinarith
  have d2 : -(p / 100 / 2 ^ 24 * W) ≤ c * W - p / 100 * W := by nlinarith
  have hnum : (32767 : ℚ) / 2 ^ 24 < 1 / 200 := by norm_num
  rw [abs_lt, hsplit]
  constructor <;> linarith

/-- The computed width against the exact quotient: never above its floor, at
most one below, and equal to it unless the quotient is an integer. -/
theorem bar_width_vs_floor {p W : ℤ} (hp0 : 0 ≤ p) (hp : p ≤ 100) (hW0 : 0 ≤ W)
    (hW : W ≤ INT16_MAX) :
    (bar_width p W = ⌊(p : ℚ) * W / 100⌋ ∨ bar_width p W = ⌊(p : ℚ) * W / 100⌋ - 1) ∧
      (¬ (100 : ℤ) ∣ p * W → bar_width p W = ⌊(p : ℚ) * W / 100⌋) := by
  rcases eq_or_lt_of_le hp0 with rfl | hp0'
  · simp [bar_width_zero_level]
  rcases eq_or_lt_of_le hW0 with rfl | hW0'
  · simp [bar_width_zero_width]
  have herr := product_error hp0' hp hW0' hW
  have hv0 : 0 ≤ f32_mul (f32_div (int_to_float p) 100) (int_to_float W) := by
    unfold f32_mul
    apply f32_round_nonneg
    apply mul_nonneg (quotient_bounds hp0 hp).1
    unfold int_to_float
    exact f32_round_nonneg (by exact_mod_cast hW0)
  have hbw : bar_width p W
      = ⌊f32_mul (f32_div (int_to_float p) 100) (int_to_float W)⌋ := by
    unfold bar_width c_float_to_int
    rw [if_pos hv0]
  rw [hbw]
  set v := f32_mul (f32_div (int_to_float p) 100) (int_to_float W) with hv
  set X : ℚ := (p : ℚ) * W / 100 with hX
  obtain ⟨hlo, hhi⟩ := abs_lt.mp herr
  have hk1 : (⌊X⌋ : ℚ) ≤ X := Int.floor_le X
  have hk2 : X < ⌊X⌋ + 1 := Int.lt_floor_add_one X
  -- `100 * X` is the integer `p * W`
  have hm : ((p * W - 100 * ⌊X⌋ : ℤ) : ℚ) = 100 * X - 100 * ⌊X⌋ := by
    rw [hX]; push_cast; ring
  have hm0 : 0 ≤ p * W - 100 * ⌊X⌋ := by
    have : (0 : ℚ) ≤ ((p * W - 100 * ⌊X⌋ : ℤ) : ℚ) := by rw [hm]; linarith
    exact_mod_cast this
  have hm1 : p * W - 100 * ⌊X⌋ < 100 := by
    have : ((p * W - 100 * ⌊X⌋ : ℤ) : ℚ) < ((100 : ℤ) : ℚ) := by
      rw [hm]; push_cast; linarith
    exact_mod_cast this
  have hm99 : ((p * W - 100 * ⌊X⌋ : ℤ) : ℚ) ≤ 99 := by
    have : p * W - 100 * ⌊X⌋ ≤ 99 := by omega
    exact_mod_cast this
  have hupper : ⌊v⌋ ≤ ⌊X⌋ := by
    have : ⌊v⌋ < ⌊X⌋ + 1 := by
      rw [Int.floor_lt]; push_cast; rw [hm] at hm99; linarith
    omega
  have hlower : ⌊X⌋ - 1 ≤ ⌊v⌋ := by
    rw [Int.le_floor]; push_cast; linarith
  refine ⟨by omega, fun hdvd => ?_⟩
  have hmne : p * W - 100 * ⌊X⌋ ≠ 0 := by
    intro h0
    exact hdvd ⟨⌊X⌋, by omega⟩
  have hm1' : (1 : ℚ) ≤ ((p * W - 100 * ⌊X⌋ : ℤ) : ℚ) := by
    have : 1 ≤ p * W - 100 * ⌊X⌋ := by omega
    exact_mod_cast this
  have : ⌊X⌋ ≤ ⌊v⌋ := by
    rw [Int.le_floor]; rw [hm] at hm1'; linarith
  omega

/-! ## Evaluating the rounding at given values -/

theorem roundHalfEven_eq_of_abs_lt {x : ℚ} {k : ℤ} (h : |x - k| < 1 / 2) :
    roundHalfEven x = k := by
  have h1 := abs_le.mp (abs_roundHalfEven_sub_le x)
  have h2 := abs_lt.mp h
  have a : ((roundHalfEven x - k : ℤ) : ℚ) < ((1 : ℤ) : ℚ) := by
    push_cast; linarith [h1.2, h2.1]
  have b : ((-1 : ℤ) : ℚ) < ((roundHalfEven x - k : ℤ) : ℚ) := by
    push_cast; linarith [h1.1, h2.2]
  have a' : roundHalfEven x - k < 1 := by exact_mod_cast a
  have b' : -1 < roundHalfEven x - k := by exact_mod_cast b
  omega

/-- A value in the binade of exponent `e` rounds to the multiple of
`2 ^ (e - 23)` that is nearer than half a spacing. -/
theorem f32_round_eq_of {x : ℚ} {e k : ℤ} (he : -126 ≤ e) (h1 : (2 : ℚ) ^ e ≤ |x|)
    (h2 : |x| < (2 : ℚ) ^ (e + 1)) (hk : |x / (2 : ℚ) ^ (e - 23) - k| < 1 / 2) :
    f32_round x = k * (2 : ℚ) ^ (e - 23) := by
  have hpos : 0 < |x| := lt_of_lt_of_le (by positivity) h1
  have hlog : Int.log 2 |x| = e := by
    apply le_antisymm
    · have : Int.log 2 |x| < e + 1 := by
        rw [← Int.lt_zpow_iff_log_lt (by norm_num) hpos]
        simpa using h2
      omega
    · rw [← Int.zpow_le_iff_le_log (by norm_num) hpos]
      simpa using h1
  have hexp : f32_exponent x = e := by
    unfold f32_exponent
    rw [hlog]; exact max_eq_left he
  unfold f32_round f32_ulp
  rw [hexp, roundHalfEven_eq_of_abs_lt hk]

theorem f32_div_53_100 : f32_div (int_to_float 53) 100 = 8891924 / 16777216 := by
  rw [int_to_float_eq (n := 53) (by norm_num) (by norm_num)]
  unfold f32_div
  have h := f32_round_eq_of (x := ((53 : ℤ) : ℚ) / 100) (e := -1) (k := 8891924)
    (by norm_num) (by norm_num [abs_of_pos]) (by norm_num [abs_of_pos])
    (by rw [abs_lt]; constructor <;> norm_num)
  rw [h]
  norm_num

theorem f32_mul_53_200 :
    f32_mul (f32_div (int_to_float 53) 100) (int_to_float 200) = 13893631 / 131072 := by
  rw [f32_div_53_100, int_to_float_eq (n := 200) (by norm_num) (by norm_num)]
  unfold f32_mul
  have h := f32_round_eq_of (x := (8891924 : ℚ) / 16777216 * ((200 : ℤ) : ℚ)) (e := 6)
    (k := 13893631)
    (by norm_num) (by norm_num [abs_of_pos]) (by norm_num [abs_of_pos])
    (by rw [abs_lt]; constructor <;> norm_num)
  rw [h]
  norm_num

theorem bar_width_53_200 : bar_width 53 200 = 105 := by
  unfold bar_width
  rw [f32_mul_53_200]
  unfold c_float_to_int
  rw [if_pos (by norm_num), Int.floor_eq_iff]
  constructor <;> norm_num

/-! ## Monotonicity of the rounding -/

theorem roundHalfEven_mono {x y : ℚ} (h : x ≤ y) : roundHalfEven x ≤ roundHalfEven y := by
  by_cases hy : ((⌊x⌋ + 1 : ℤ) : ℚ) ≤ y
  · have h1 : roundHalfEven x ≤ ⌊x⌋ + 1 := by
      apply roundHalfEven_le_of_le
      push_cast
      exact (Int.lt_floor_add_one x).le
    exact le_trans h1 (le_roundHalfEven_of_le hy)
  · push_neg at hy
    have hfl : ⌊y⌋ = ⌊x⌋ := by
      apply le_antisymm
      · have : ⌊y⌋ < ⌊x⌋ + 1 := Int.floor_lt.mpr hy
        omega
      · exact Int.floor_le_floor h
    unfold roundHalfEven
    simp only [hfl]
    split_ifs <;> first | omega | (exfalso; linarith)

theorem zpow_split_23 (e : ℤ) : (2 : ℚ) ^ e = 8388608 * 2 ^ (e - 23) := by
  rw [zpow_sub₀ (by norm_num)]
  have h23 : (2 : ℚ) ^ (23 : ℤ) = 8388608 := by norm_num
  rw [h23]
  field_simp

theorem zpow_split_24 (e : ℤ) : (2 : ℚ) ^ (e + 1) = 16777216 * 2 ^ (e - 23) := by
  rw [zpow_add₀ (by norm_num), zpow_split_23 e]
  norm_num
  ring

theorem abs_lt_zpow_exponent (x : ℚ) : |x| < (2 : ℚ) ^ (f32_exponent x + 1) := by
  have h1 : |x| < ((2 : ℕ) : ℚ) ^ (Int.log 2 |x| + 1) :=
    Int.lt_zpow_succ_log_self (by norm_num) |x|
  have h2 : Int.log 2 |x| + 1 ≤ f32_exponent x + 1 := by
    unfold f32_exponent
    have := le_max_left (Int.log 2 |x|) (-126)
    omega
  have h3 : ((2 : ℕ) : ℚ) ^ (Int.log 2 |x| + 1) ≤ (2 : ℚ) ^ (f32_exponent x + 1) := by
    have : ((2 : ℕ) : ℚ) = 2 := by norm_num
    rw [this]
    exact zpow_le_zpow_right₀ (by norm_num) h2
  exact lt_of_lt_of_le h1 h3

/-- Rounding stays within the closed binade of its argument. -/
theorem f32_round_le_zpow (x : ℚ) : f32_round x ≤ (2 : ℚ) ^ (f32_exponent x + 1) := by
  have hlt := abs_lt_zpow_exponent x
  have hx : x ≤ (2 : ℚ) ^ (f32_exponent x + 1) := le_trans (le_abs_self x) hlt.le
  rw [zpow_split_24] at hx ⊢
  unfold f32_round f32_ulp
  have hq : (0 : ℚ) < 2 ^ (f32_exponent x - 23) := by positivity
  have hk : x / 2 ^ (f32_exponent x - 23) ≤ ((16777216 : ℤ) : ℚ) := by
    rw [div_le_iff₀ hq]; push_cast; exact hx
  have h2 : (roundHalfEven (x / 2 ^ (f32_exponent x - 23)) : ℚ) ≤ ((16777216 : ℤ) : ℚ) := by
    exact_mod_cast roundHalfEven_le_of_le hk
  push_cast at h2
  exact mul_le_mul_of_nonneg_right h2 hq.le

theorem neg_zpow_le_f32_round (x : ℚ) : -(2 : ℚ) ^ (f32_exponent x + 1) ≤ f32_round x := by
  have hlt := abs_lt_zpow_exponent x
  have hx : -(2 : ℚ) ^ (f32_exponent x + 1) ≤ x := by
    have := neg_abs_le x
    linarith
  rw [zpow_split_24] at hx ⊢
  unfold f32_round f32_ulp
  have hq : (0 : ℚ) < 2 ^ (f32_exponent x - 23) := by positivity
  have hk : ((-16777216 : ℤ) : ℚ) ≤ x / 2 ^ (f32_exponent x - 23) := by
    rw [le_div_iff₀ hq]; push_cast; linarith
  have h2 : ((-16777216 : ℤ) : ℚ) ≤ (roundHalfEven (x / 2 ^ (f32_exponent x - 23)) : ℚ) := by
    exact_mod_cast le_roundHalfEven_of_le hk
  push_cast at h2
  have := mul_le_mul_of_nonneg_right h2 hq.le
  linarith

/-- In the normal range a positive value does not round below the lower end
of its binade. -/
theorem zpow_exponent_le_f32_round {x : ℚ} (hx : (2 : ℚ) ^ (-126 : ℤ) ≤ x) :
    (2 : ℚ) ^ f32_exponent x ≤ f32_round x := by
  have hpos : 0 < x := lt_of_lt_of_le (by positivity) hx
  have hle := zpow_f32_exponent_le (x := x) (by rwa [abs_of_pos hpos])
  rw [abs_of_pos hpos, zpow_split_23] at hle
  rw [zpow_split_23]
  unfold f32_round f32_ulp
  have hq : (0 : ℚ) < 2 ^ (f32_exponent x - 23) := by positivity
  have hk : ((8388608 : ℤ) : ℚ) ≤ x / 2 ^ (f32_exponent x - 23) := by
    rw [le_div_iff₀ hq]; push_cast; exact hle
  have h2 : ((8388608 : ℤ) : ℚ) ≤ (roundHalfEven (x / 2 ^ (f32_exponent x - 23)) : ℚ) := by
    exact_mod_cast le_roundHalfEven_of_le hk
  push_cast at h2
  exact mul_le_mul_of_nonneg_right h2 hq.le

theorem f32_round_le_neg_zpow {x : ℚ} (hx : x ≤ -(2 : ℚ) ^ (-126 : ℤ)) :
    f32_round x ≤ -(2 : ℚ) ^ f32_exponent x := by
  have hneg : x < 0 := lt_of_le_of_lt hx (by simp; positivity)
  have hle := zpow_f32_exponent_le (x := x) (by rw [abs_of_neg hneg]; linarith)
  rw [abs_of_neg hneg, zpow_split_23] at hle
  rw [zpow_split_23]
  unfold f32_round f32_ulp
  have hq : (0 : ℚ) < 2 ^ (f32_exponent x - 23) := by positivity
  have hk : x / 2 ^ (f32_exponent x - 23) ≤ ((-8388608 : ℤ) : ℚ) := by
    rw [div_le_iff₀ hq]; push_cast; linarith
  have h2 : (roundHalfEven (x / 2 ^ (f32_exponent x - 23)) : ℚ) ≤ ((-8388608 : ℤ) : ℚ) := by
    exact_mod_cast roundHalfEven_le_of_le hk
  push_cast at h2
  have := mul_le_mul_of_nonneg_right h2 hq.le
  linarith

theorem f32_exponent_mono {x y : ℚ} (hpos : 0 < |x|) (h : |x| ≤ |y|) :
    f32_exponent x ≤ f32_exponent y := by
  unfold f32_exponent
  exact max_le_max (Int.log_mono_right hpos h) le_rfl

theorem normal_of_exponent_lt {x y : ℚ} (hypos : 0 < |y|)
    (h : f32_exponent x < f32_exponent y) : (2 : ℚ) ^ (-126 : ℤ) ≤ |y| := by
  have hx : -126 ≤ f32_exponent x := le_max_right _ _
  have hlog : -126 ≤ Int.log 2 |y| := by
    unfold f32_exponent at h
    rcases le_total (Int.log 2 |y|) (-126) with hl | hl
    · rw [max_eq_right hl] at h
      omega
    · exact hl
  rw [← Int.zpow_le_iff_le_log (by norm_num) hypos] at hlog
  simpa using hlog

theorem f32_round_le_of_exponent_eq {x y : ℚ} (he : f32_exponent x = f32_exponent y)
    (h : x ≤ y) : f32_round x ≤ f32_round y := by
  unfold f32_round f32_ulp
  rw [he]
  have hq : (0 : ℚ) < 2 ^ (f32_exponent y - 23) := by positivity
  have hdiv : x / 2 ^ (f32_exponent y - 23) ≤ y / 2 ^ (f32_exponent y - 23) :=
    div_le_div_of_nonneg_right h hq.le
  have h2 : (roundHalfEven (x / 2 ^ (f32_exponent y - 23)) : ℚ)
      ≤ roundHalfEven (y / 2 ^ (f32_exponent y - 23)) := by
    exact_mod_cast roundHalfEven_mono hdiv
  exact mul_le_mul_of_nonneg_right h2 hq.le

theorem f32_round_mono_nonneg {x y : ℚ} (hx : 0 ≤ x) (h : x ≤ y) :
    f32_round x ≤ f32_round y := by
  rcases eq_or_lt_of_le hx with h0 | hpos
  · rw [← h0, f32_round_zero]; exact f32_round_nonneg (le_trans hx h)
  have hy : 0 < y := lt_of_lt_of_le hpos h
  have hax : |x| = x := abs_of_pos hpos
  have hay : |y| = y := abs_of_pos hy
  have hmono := f32_exponent_mono (x := x) (y := y) (by rw [hax]; exact hpos)
    (by rw [hax, hay]; exact h)
  rcases eq_or_lt_of_le hmono with he | hlt
  · exact f32_round_le_of_exponent_eq he h
  · have hnorm := normal_of_exponent_lt (by rw [hay]; exact hy) hlt
    rw [hay] at hnorm
    have h1 := f32_round_le_zpow x
    have h2 := zpow_exponent_le_f32_round hnorm
    have h3 : (2 : ℚ) ^ (f32_exponent x + 1) ≤ 2 ^ f32_exponent y :=
      zpow_le_zpow_right₀ (by norm_num) (by omega)
    linarith

theorem f32_round_mono_nonpos {x y : ℚ} (hy : y ≤ 0) (h : x ≤ y) :
    f32_round x ≤ f32_round y := by
  rcases eq_or_lt_of_le hy with h0 | hneg
  · rw [h0, f32_round_zero]; exact f32_round_nonpos (le_trans h hy)
  have hx : x < 0 := lt_of_le_of_lt h hneg
  have hax : |x| = -x := abs_of_neg hx
  have hay : |y| = -y := abs_of_neg hneg
  have hmono := f32_exponent_mono (x := y) (y := x) (by rw [hay]; linarith)
    (by rw [hax, hay]; linarith)
  rcases eq_or_lt_of_le hmono with he | hlt
  · exact f32_round_le_of_exponent_eq he.symm h
  · have hnorm := normal_of_exponent_lt (x := y) (y := x) (by rw [hax]; linarith) hlt
    rw [hax] at hnorm
    have h1 := neg_zpow_le_f32_round y
    have h2 := f32_round_le_neg_zpow (x := x) (by linarith)
    have h3 : (2 : ℚ) ^ (f32_exponent y + 1) ≤ 2 ^ f32_exponent x :=
      zpow_le_zpow_right₀ (by norm_num) (by omega)
    linarith

/-- Rounding to single precision is monotone. -/
theorem f32_round_mono {x y : ℚ} (h : x ≤ y) : f32_round x ≤ f32_round y := by
  rcases le_total 0 x with hx | hx
  · exact f32_round_mono_nonneg hx h
  · rcases le_total y 0 with hy | hy
    · exact f32_round_mono_nonpos hy h
    · exact le_trans (f32_round_nonpos hx) (f32_round_nonneg hy)

/-! ## Levels outside `0..100` -/

theorem bar_width_nonpos_of_neg {p W : ℤ} (hp : p < 0) (hW0 : 0 ≤ W) (hW : W ≤ INT16_MAX) :
    bar_width p W ≤ 0 := by
  unfold INT16_MAX at hW
  unfold bar_width
  rw [int_to_float_eq (n := W) (by omega) (by omega)]
  have h1 : int_to_float p ≤ 0 := by
    unfold int_to_float
    exact f32_round_nonpos (by exact_mod_cast hp.le)
  have h2 : f32_div (int_to_float p) 100 ≤ 0 := by
    unfold f32_div
    exact f32_round_nonpos (div_nonpos_of_nonpos_of_nonneg h1 (by norm_num))
  have hw : (0 : ℚ) ≤ W := by exact_mod_cast hW0
  have h3 : f32_mul (f32_div (int_to_float p) 100) W ≤ 0 := by
    unfold f32_mul
    exact f32_round_nonpos (mul_nonpos_of_nonpos_of_nonneg h2 hw)
  unfold c_float_to_int
  split_ifs with h
  · have h0 : f32_mul (f32_div (int_to_float p) 100) W = 0 := le_antisymm h3 h
    rw [h0]; simp
  · exact Int.ceil_le.mpr (by simpa using h3)

theorem le_bar_width_of_gt {p W : ℤ} (hp : 100 < p) (hW0 : 0 ≤ W) (hW : W ≤ INT16_MAX) :
    W ≤ bar_width p W := by
  unfold INT16_MAX at hW
  unfold bar_width
  rw [int_to_float_eq (n := W) (by omega) (by omega)]
  have hp' : ((100 : ℤ) : ℚ) ≤ p := by exact_mod_cast hp.le
  have h1 : (100 : ℚ) ≤ int_to_float p := by
    unfold int_to_float
    have hp100 : (100 : ℚ) ≤ p := by exact_mod_cast hp.le
    have := le_f32_round_of_le (x := (p : ℚ)) (k := 100) (by linarith)
      (by norm_num) hp'
    simpa using this
  have h2 : (1 : ℚ) ≤ f32_div (int_to_float p) 100 := by
    unfold f32_div
    have hq : (((1 : ℤ) : ℚ)) ≤ int_to_float p / 100 := by
      rw [le_div_iff₀ (by norm_num)]; push_cast; linarith
    have := le_f32_round_of_le (x := int_to_float p / 100) (k := 1)
      (by push_cast at hq; linarith) (by norm_num) hq
    simpa using this
  have hw : (0 : ℚ) ≤ W := by exact_mod_cast hW0
  have hw2 : (W : ℚ) ≤ 32767 := by exact_mod_cast hW
  have hx : (W : ℚ) ≤ f32_div (int_to_float p) 100 * W := by nlinarith
  have h3 : (W : ℚ) ≤ f32_mul (f32_div (int_to_float p) 100) W := by
    unfold f32_mul
    exact le_f32_round_of_le (by linarith) (by linarith [show (32767 : ℚ) < 2 ^ 24 by norm_num]) hx
  unfold c_float_to_int
  rw [if_pos (by linarith)]
  exact Int.le_floor.mpr h3

theorem f32_round_101_100 : f32_round (101 / 100) = 8472494 / 8388608 := by
  have h := f32_round_eq_of (x := (101 : ℚ) / 100) (e := 0) (k := 8472494)
    (by norm_num) (by norm_num [abs_of_pos]) (by norm_num [abs_of_pos])
    (by rw [abs_lt]; constructor <;> norm_num)
  rw [h]
  norm_num

theorem f32_round_quotient_100 : f32_round (8472494 / 8388608 * 100) = 101 := by
  have h := f32_round_eq_of (x := (8472494 : ℚ) / 8388608 * 100) (e := 6) (k := 13238272)
    (by norm_num) (by norm_num [abs_of_pos]) (by norm_num [abs_of_pos])
    (by rw [abs_lt]; constructor <;> norm_num)
  rw [h]
  norm_num

theorem f32_round_quotient_99 :
    f32_round (8472494 / 8388608 * 99) = 13105889 / 131072 := by
  have h := f32_round_eq_of (x := (8472494 : ℚ) / 8388608 * 99) (e := 6) (k := 13105889)
    (by norm_num) (by norm_num [abs_of_pos]) (by norm_num [abs_of_pos])
    (by rw [abs_lt]; constructor <;> norm_num)
  rw [h]
  norm_num

theorem f32_round_quotient_32767 :
    f32_round (8472494 / 8388608 * 32767) = 8472235 / 256 := by
  have h := f32_round_eq_of (x := (8472494 : ℚ) / 8388608 * 32767) (e := 15) (k := 8472235)
    (by norm_num) (by norm_num [abs_of_pos]) (by norm_num [abs_of_pos])
    (by rw [abs_lt]; constructor <;> norm_num)
  rw [h]
  norm_num

theorem f32_round_neg_1_100 : f32_round (-1 / 100) = -10737418 / 1073741824 := by
  have h := f32_round_eq_of (x := (-1 : ℚ) / 100) (e := -7) (k := -10737418)
    (by norm_num) (by norm_num [abs_of_neg]) (by norm_num [abs_of_neg])
    (by rw [abs_lt]; constructor <;> norm_num)
  rw [h]
  norm_num

theorem f32_round_neg_quotient_100 :
    f32_round (-10737418 / 1073741824 * 100) = -1 := by
  have h := f32_round_eq_of (x := (-10737418 : ℚ) / 1073741824 * 100) (e := -1)
    (k := -16777216)
    (by norm_num) (by norm_num [abs_of_neg]) (by norm_num [abs_of_neg])
    (by rw [abs_lt]; constructor <;> norm_num)
  rw [h]
  norm_num

theorem f32_round_neg_quotient_99 :
    f32_round (-10737418 / 1073741824 * 99) = -16609443 / 16777216 := by
  have h := f32_round_eq_of (x := (-10737418 : ℚ) / 1073741824 * 99) (e := -1)
    (k := -16609443)
    (by norm_num) (by norm_num [abs_of_neg]) (by norm_num [abs_of_neg])
    (by rw [abs_lt]; constructor <;> norm_num)
  rw [h]
  norm_num

theorem f32_div_101 : f32_div (int_to_float 101) 100 = 8472494 / 8388608 := by
  rw [int_to_float_eq (n := 101) (by norm_num) (by norm_num)]
  unfold f32_div
  have : (((101 : ℤ) : ℚ)) / 100 = 101 / 100 := by norm_num
  rw [this, f32_round_101_100]

theorem f32_div_neg_1 : f32_div (int_to_float (-1)) 100 = -10737418 / 1073741824 := by
  rw [int_to_float_eq (n := -1) (by norm_num) (by norm_num)]
  unfold f32_div
  have : (((-1 : ℤ) : ℚ)) / 100 = -1 / 100 := by norm_num
  rw [this, f32_round_neg_1_100]

theorem bar_width_101_99 : bar_width 101 99 = 99 := by
  unfold bar_width
  rw [f32_div_101, int_to_float_eq (n := 99) (by norm_num) (by norm_num)]
  unfold f32_mul
  have : (8472494 : ℚ) / 8388608 * ((99 : ℤ) : ℚ) = 8472494 / 8388608 * 99 := by norm_num
  rw [this, f32_round_quotient_99]
  unfold c_float_to_int
  rw [if_pos (by norm_num), Int.floor_eq_iff]
  constructor <;> norm_num

theorem bar_width_neg1_99 : bar_width (-1) 99 = 0 := by
  unfold bar_width
  rw [f32_div_neg_1, int_to_float_eq (n := 99) (by norm_num) (by norm_num)]
  unfold f32_mul
  have : (-10737418 : ℚ) / 1073741824 * ((99 : ℤ) : ℚ) = -10737418 / 1073741824 * 99 := by
    norm_num
  rw [this, f32_round_neg_quotient_99]
  unfold c_float_to_int
  rw [if_neg (by norm_num), Int.ceil_eq_iff]
  constructor <;> norm_num

theorem bar_width_101_32767 : bar_width 101 32767 = 33094 := by
  unfold bar_width
  rw [f32_div_101, int_to_float_eq (n := 32767) (by norm_num) (by norm_num)]
  unfold f32_mul
  have : (8472494 : ℚ) / 8388608 * ((32767 : ℤ) : ℚ) = 8472494 / 8388608 * 32767 := by
    norm_num
  rw [this, f32_round_quotient_32767]
  unfold c_float_to_int
  rw [if_pos (by norm_num), Int.floor_eq_iff]
  constructor <;> norm_num

/-! ## Strict excess for layers at least 100 wide -/

theorem quotient_ge_of_gt {p : ℤ} (hp : 100 < p) :
    (8472494 : ℚ) / 8388608 ≤ f32_div (int_to_float p) 100 := by
  have hp101 : (101 : ℚ) ≤ p := by exact_mod_cast (show (101 : ℤ) ≤ p by omega)
  have h1 : (101 : ℚ) ≤ int_to_float p := by
    unfold int_to_float
    have h := f32_round_mono hp101
    have h101 : f32_round (101 : ℚ) = 101 := by
      have := f32_round_intCast (k := 101) (by norm_num)
      simpa using this
    rw [h101] at h
    exact h
  unfold f32_div
  have h2 : (101 : ℚ) / 100 ≤ int_to_float p / 100 :=
    div_le_div_of_nonneg_right h1 (by norm_num)
  have h3 := f32_round_mono h2
  rw [f32_round_101_100] at h3
  exact h3

theorem quotient_le_of_neg {p : ℤ} (hp : p < 0) :
    f32_div (int_to_float p) 100 ≤ (-10737418 : ℚ) / 1073741824 := by
  have hp1 : (p : ℚ) ≤ -1 := by exact_mod_cast (show p ≤ (-1 : ℤ) by omega)
  have h1 : int_to_float p ≤ -1 := by
    unfold int_to_float
    have h := f32_round_mono hp1
    have hm1 : f32_round (-1 : ℚ) = -1 := by
      have := f32_round_intCast (k := -1) (by norm_num)
      simpa using this
    rw [hm1] at h
    exact h
  unfold f32_div
  have h2 : int_to_float p / 100 ≤ (-1 : ℚ) / 100 :=
    div_le_div_of_nonneg_right h1 (by norm_num)
  have h3 := f32_round_mono h2
  rw [f32_round_neg_1_100] at h3
  exact h3

/-- Above level 100 a layer at least 100 wide gets a bar wider than itself. -/
theorem lt_bar_width_of_gt {p W : ℤ} (hp : 100 < p) (hW100 : 100 ≤ W)
    (hW : W ≤ INT16_MAX) : W < bar_width p W := by
  unfold INT16_MAX at hW
  have hc := quotient_ge_of_gt hp
  unfold bar_width
  rw [int_to_float_eq (n := W) (by omega) (by omega)]
  set c := f32_div (int_to_float p) 100 with hcdef
  have hw100 : (100 : ℚ) ≤ W := by exact_mod_cast hW100
  have hw2 : (W : ℚ) ≤ 32767 := by exact_mod_cast hW
  have hx0 : (0 : ℚ) ≤ c * W := by
    apply mul_nonneg _ (by linarith)
    exact le_trans (by norm_num) hc
  have hv : ((W + 1 : ℤ) : ℚ) ≤ f32_mul c W := by
    unfold f32_mul
    rcases eq_or_lt_of_le hW100 with h100 | h101
    · -- `W = 100`: the product is at least `100 * fl(1.01)`, which rounds to 101
      have hWq : (W : ℚ) = 100 := by rw [← h100]; norm_num
      push_cast
      rw [hWq]
      have hx : (8472494 : ℚ) / 8388608 * 100 ≤ c * 100 := by linarith
      have h := f32_round_mono hx
      rw [f32_round_quotient_100] at h
      linarith
    · -- `W ≥ 101`: the exact product already reaches `W + 1`
      have hw101 : (101 : ℚ) ≤ W := by exact_mod_cast (show (101 : ℤ) ≤ W by omega)
      have hx : ((W + 1 : ℤ) : ℚ) ≤ c * W := by
        push_cast
        have : (8472494 : ℚ) / 8388608 * W ≤ c * W :=
          mul_le_mul_of_nonneg_right hc (by linarith)
        have h2 : (W : ℚ) + 1 ≤ 8472494 / 8388608 * W := by linarith
        linarith
      exact le_f32_round_of_le hx0
        (by push_cast; linarith [show (32768 : ℚ) < 2 ^ 24 by norm_num]) hx
  have hv0 : (0 : ℚ) ≤ f32_mul c W := by
    push_cast at hv; linarith
  unfold c_float_to_int
  rw [if_pos hv0]
  have : W + 1 ≤ ⌊f32_mul c W⌋ := Int.le_floor.mpr hv
  omega

/-- Below level 0 a layer at least 100 wide gets a bar of negative width. -/
theorem bar_width_neg_of_neg {p W : ℤ} (hp : p < 0) (hW100 : 100 ≤ W)
    (hW : W ≤ INT16_MAX) : bar_width p W < 0 := by
  unfold INT16_MAX at hW
  have hc := quotient_le_of_neg hp
  unfold bar_width
  rw [int_to_float_eq (n := W) (by omega) (by omega)]
  set c := f32_div (int_to_float p) 100 with hcdef
  have hw100 : (100 : ℚ) ≤ W := by exact_mod_cast hW100
  have hv : f32_mul c W ≤ ((-1 : ℤ) : ℚ) := by
    unfold f32_mul
    have hx : c * W ≤ (-10737418 : ℚ) / 1073741824 * 100 := by nlinarith
    have h := f32_round_mono hx
    rw [f32_round_neg_quotient_100] at h
    push_cast
    exact h
  unfold c_float_to_int
  rw [if_neg (by push_cast at hv; linarith)]
  have : ⌈f32_mul c W⌉ ≤ -1 := Int.ceil_le.mpr hv
  omega

/-! ## Formatting lemmas -/

theorem two_digits_eq_zero_padded : ∀ n < 100, two_digits n = zero_padded_two n := by
  decide


theorem two_digits_length : ∀ n < 100, (two_digits n).length = 2 := by
  decide

theorem hour12_lt (h : ℕ) : (if h % 12 = 0 then 12 else h % 12) < 100 := by
  split_ifs <;> omega

theorem hour12_numeral : ∀ h < 24,
    two_digits (if h % 12 = 0 then 12 else h % 12) = zero_padded_two ((h + 11) % 12 + 1) ∧
      is_numeral_of (zero_padded_two ((h + 11) % 12 + 1)) ((h + 11) % 12 + 1) := by
  decide

theorem expand_24h (tm : Tm) :
    strftime_expand ['%', 'H', ':', '%', 'M'] tm
      = two_digits tm.tm_hour ++ ':' :: two_digits tm.tm_min := by
  simp [strftime_expand, strftime_conversion]

theorem expand_12h (tm : Tm) :
    strftime_expand ['%', 'I', ':', '%', 'M'] tm
      = two_digits (if tm.tm_hour % 12 = 0 then 12 else tm.tm_hour % 12)
          ++ ':' :: two_digits tm.tm_min := by
  simp [strftime_expand, strftime_conversion]

theorem expand_date (tm : Tm) :
    strftime_expand ['%', 'm', ' ', ' ', '%', 'd'] tm
      = two_digits (tm.tm_mon + 1) ++ ' ' :: ' ' :: two_digits tm.tm_mday := by
  simp [strftime_expand, strftime_conversion]

theorem zero_padded_two_length {n : ℕ} (h : n < 100) : (zero_padded_two n).length = 2 := by
  rw [← two_digits_eq_zero_padded n h]; exact two_digits_length n h

/-! ## The claims about `update_time` -/

/-- C5: with the 24-hour style on, for every hour `0..23` and minute `0..59`
the time text is exactly five characters: the two-digit zero-padded hour, a
colon, the two-digit zero-padded minute. -/
theorem update_time_24h (tm : Tm) (hh : tm.tm_hour < 24) (hm : tm.tm_min < 60) :
    (update_time true tm).time_buffer
        = some (zero_padded_two tm.tm_hour ++ [':'] ++ zero_padded_two tm.tm_min) ∧
      (zero_padded_two tm.tm_hour ++ [':'] ++ zero_padded_two tm.tm_min).length = 5 := by
  have h1 := two_digits_eq_zero_padded tm.tm_hour (by omega)
  have h2 := two_digits_eq_zero_padded tm.tm_min (by omega)
  constructor
  · simp only [update_time, strftime, if_true, expand_24h, h1, h2]
    simp [time_buffer_size, zero_padded_two_length (show tm.tm_hour < 100 by omega),
      zero_padded_two_length (show tm.tm_min < 100 by omega)]
  · simp [zero_padded_two_length (show tm.tm_hour < 100 by omega),
      zero_padded_two_length (show tm.tm_min < 100 by omega)]

theorem update_time_24h_witness :
    (update_time true ⟨5, 7, 3, 0⟩).time_buffer = some ['0', '7', ':', '0', '5'] := by
  have h := (update_time_24h ⟨5, 7, 3, 0⟩ (by decide) (by decide)).1
  rw [h]
  decide

/-- C6: with the 24-hour style off, for every hour `h` in `0..23` and minute
`0..59` the time text is an hour field, a colon and the two-digit zero-padded
minute; the hour field is a decimal numeral (one leading zero allowed) of
`((h + 11) mod 12) + 1`, the hour mapped into `1..12`. -/
theorem update_time_12h (tm : Tm) (hh : tm.tm_hour < 24) (hm : tm.tm_min < 60) :
    ∃ hour_field : List Char,
      (update_time false tm).time_buffer
          = some (hour_field ++ [':'] ++ zero_padded_two tm.tm_min) ∧
        is_numeral_of hour_field ((tm.tm_hour + 11) % 12 + 1) ∧
        1 ≤ (tm.tm_hour + 11) % 12 + 1 ∧ (tm.tm_hour + 11) % 12 + 1 ≤ 12 := by
  obtain ⟨h1, h3⟩ := hour12_numeral tm.tm_hour hh
  have h2 := two_digits_eq_zero_padded tm.tm_min (by omega)
  have hlen := zero_padded_two_length (show (tm.tm_hour + 11) % 12 + 1 < 100 by omega)
  refine ⟨zero_padded_two ((tm.tm_hour + 11) % 12 + 1), ?_, h3, by omega, by omega⟩
  simp only [update_time, Bool.false_eq_true, if_false, strftime, expand_12h, h1, h2]
  simp [time_buffer_size, hlen,
    zero_padded_two_length (show tm.tm_min < 100 by omega)]

theorem update_time_12h_witness :
    ∃ hour_field : List Char,
      (update_time false ⟨5, 13, 3, 0⟩).time_buffer
          = some (hour_field ++ [':'] ++ zero_padded_two 5) ∧
        is_numeral_of hour_field 1 ∧ 1 ≤ 1 ∧ 1 ≤ 12 :=
  update_time_12h ⟨5, 13, 3, 0⟩ (by decide) (by decide)

/-- C7: for every month `1..12` (the field `tm_mon` counts from 0) and day of
the month `1..31` the date text is exactly six characters: the two-digit
zero-padded month, two spaces, the two-digit zero-padded day. -/
theorem update_time_date (style : Bool) (tm : Tm) (hmon : tm.tm_mon < 12)
    (hd1 : 1 ≤ tm.tm_mday) (hd : tm.tm_mday ≤ 31) :
    (update_time style tm).date_buffer
        = some (zero_padded_two (tm.tm_mon + 1) ++ [' ', ' '] ++ zero_padded_two tm.tm_mday) ∧
      (zero_padded_two (tm.tm_mon + 1) ++ [' ', ' '] ++ zero_padded_two tm.tm_mday).length
        = 6 := by
  have h1 := two_digits_eq_zero_padded (tm.tm_mon + 1) (by omega)
  have h2 := two_digits_eq_zero_padded tm.tm_mday (by omega)
  have l1 := zero_padded_two_length (show tm.tm_mon + 1 < 100 by omega)
  have l2 := zero_padded_two_length (show tm.tm_mday < 100 by omega)
  constructor
  · simp only [update_time, strftime, expand_date, h1, h2]
    simp [date_buffer_size, l1, l2]
  · simp [l1, l2]

theorem update_time_date_witness :
    (update_time true ⟨5, 7, 3, 0⟩).date_buffer = some ['0', '1', ' ', ' ', '0', '3'] := by
  have h := (update_time_date true ⟨5, 7, 3, 0⟩ (by decide) (by decide) (by decide)).1
  rw [h]
  decide

/-- C8: for every valid broken-down time and either hour style, both calls of
`strftime` in `update_time` succeed, and each text with its terminator fits
the buffer declared for it (8 bytes for the time, 16 for the date). -/
theorem update_time_fits (style : Bool) (tm : Tm) (hh : tm.tm_hour < 24)
    (hm : tm.tm_min < 60) (hmon : tm.tm_mon < 12) (hd1 : 1 ≤ tm.tm_mday)
    (hd : tm.tm_mday ≤ 31) :
    ∃ time_text date_text : List Char,
      update_time style tm = { time_buffer := some time_text, date_buffer := some date_text } ∧
        time_text.length + 1 ≤ time_buffer_size ∧
        date_text.length + 1 ≤ date_buffer_size := by
  have l1 := two_digits_length tm.tm_hour (by omega)
  have l2 := two_digits_length tm.tm_min (by omega)
  have l3 := two_digits_length (tm.tm_mon + 1) (by omega)
  have l4 := two_digits_length tm.tm_mday (by omega)
  have l5 := two_digits_length _ (hour12_lt tm.tm_hour)
  cases style
  · refine ⟨strftime_expand ['%', 'I', ':', '%', 'M'] tm,
      strftime_expand ['%', 'm', ' ', ' ', '%', 'd'] tm, ?_, ?_, ?_⟩
    · simp [update_time, strftime, expand_12h, expand_date, l2, l3, l4, l5,
        time_buffer_size, date_buffer_size]
    · simp [expand_12h, l2, l5, time_buffer_size]
    · simp [expand_date, l3, l4, date_buffer_size]
  · refine ⟨strftime_expand ['%', 'H', ':', '%', 'M'] tm,
      strftime_expand ['%', 'm', ' ', ' ', '%', 'd'] tm, ?_, ?_, ?_⟩
    · simp [update_time, strftime, expand_24h, expand_date, l1, l2, l3, l4,
        time_buffer_size, date_buffer_size]
    · simp [expand_24h, l1, l2, time_buffer_size]
    · simp [expand_date, l3, l4, date_buffer_size]

theorem update_time_fits_witness :
    ∃ time_text date_text : List Char,
      update_time false ⟨59, 23, 31, 11⟩
          = { time_buffer := some time_text, date_buffer := some date_text } ∧
        time_text.length + 1 ≤ time_buffer_size ∧
        date_text.length + 1 ≤ date_buffer_size :=
  update_time_fits false ⟨59, 23, 31, 11⟩ (by decide) (by decide) (by decide) (by decide)
    (by decide)

theorem bar_width_15_144 : bar_width 15 144 = 21 := by
  have h := (bar_width_vs_floor (p := 15) (W := 144) (by decide) (by decide) (by decide)
    (by decide)).2 (by decide)
  rw [h, Int.floor_eq_iff]
  constructor <;> norm_num

theorem bar_width_10_144 : bar_width 10 144 = 14 := by
  have h := (bar_width_vs_floor (p := 10) (W := 144) (by decide) (by decide) (by decide)
    (by decide)).2 (by decide)
  rw [h, Int.floor_eq_iff]
  constructor <;> norm_num

theorem floor_half (d : ℤ) : ⌊(d : ℚ) / 2⌋ = d / 2 := by
  rw [Int.floor_eq_iff]
  have h1 : 2 * (d / 2) ≤ d := by omega
  have h2 : d < 2 * (d / 2) + 2 := by omega
  have h1q : (2 : ℚ) * ((d / 2 : ℤ) : ℚ) ≤ d := by exact_mod_cast h1
  have h2q : (d : ℚ) < 2 * ((d / 2 : ℤ) : ℚ) + 2 := by exact_mod_cast h2
  constructor <;> linarith

theorem to_int16_eq {x : ℤ} (h : is_int16 x) : to_int16 x = x := by
  unfold is_int16 at h
  unfold to_int16
  omega

theorem is_int16_tdiv_two {a b : ℤ} (ha : is_int16 a) (hb : is_int16 b) :
    is_int16 ((a - b).tdiv 2) := by
  unfold is_int16 at *
  rcases le_total 0 (a - b) with h | h
  · rw [Int.tdiv_eq_ediv h (by norm_num)]
    omega
  · have e : (a - b).tdiv 2 = -((b - a).tdiv 2) := by
      rw [← Int.neg_tdiv]; congr 1; ring
    rw [e, Int.tdiv_eq_ediv (by omega) (by norm_num)]
    omega

/-- The fills of `update_battery`, with the bar rectangle as `GRect` stores
it. -/
theorem filled_rects_update_battery (s : AppState) (bounds : GRect) :
    filled_rects none (update_battery s bounds)
      = [(bounds, some s.s_background_color),
          (GRect.make ((bounds.size.w - bar_width s.s_battery_level bounds.size.w).tdiv 2) 0
              (bar_width s.s_battery_level bounds.size.w) bounds.size.h,
            some (if bar_width s.s_battery_level bounds.size.w ≤ 20 then GColor.GColorRed
              else s.s_element_color))] := by
  simp [update_battery, filled_rects, battery_bar]

/-! ## The claims about `update_battery` -/

/-- C1 (as stated, refuted): at level 53 on a layer 200 wide the exact quotient
is 106, while the single precision computation of `update_battery` yields
105. -/
theorem update_battery_width_not_floor :
    (battery_bar (battery_callback init ⟨53⟩) ⟨⟨0, 0⟩, ⟨200, 10⟩⟩).width = 105 ∧
      ⌊((53 : ℤ) : ℚ) * ((200 : ℤ) : ℚ) / 100⌋ = 106 ∧
      (battery_bar (battery_callback init ⟨53⟩) ⟨⟨0, 0⟩, ⟨200, 10⟩⟩).width
        ≠ ⌊((53 : ℤ) : ℚ) * ((200 : ℤ) : ℚ) / 100⌋ := by
  have hw : (battery_bar (battery_callback init ⟨53⟩) ⟨⟨0, 0⟩, ⟨200, 10⟩⟩).width = 105 :=
    bar_width_53_200
  have hf : ⌊((53 : ℤ) : ℚ) * ((200 : ℤ) : ℚ) / 100⌋ = 106 := by
    rw [Int.floor_eq_iff]; constructor <;> norm_num
  refine ⟨hw, hf, ?_⟩
  rw [hw, hf]
  decide

/-- C1 (amended): for every level `p` in `0..100` and layer width `W` in
`0..32767` the bar width computed by `update_battery` is `floor(p * W / 100)`
or one less; it is `floor(p * W / 100)` whenever `p * W` is not a multiple of
100; it is 0 when `p = 0` and `W` when `p = 100`. -/
theorem update_battery_width_near_floor (s : AppState) (bounds : GRect)
    (hp0 : 0 ≤ s.s_battery_level) (hp : s.s_battery_level ≤ 100)
    (hW0 : 0 ≤ bounds.size.w) (hW : bounds.size.w ≤ INT16_MAX) :
    ((battery_bar s bounds).width = ⌊(s.s_battery_level : ℚ) * bounds.size.w / 100⌋ ∨
        (battery_bar s bounds).width
          = ⌊(s.s_battery_level : ℚ) * bounds.size.w / 100⌋ - 1) ∧
      (¬ (100 : ℤ) ∣ s.s_battery_level * bounds.size.w →
        (battery_bar s bounds).width = ⌊(s.s_battery_level : ℚ) * bounds.size.w / 100⌋) ∧
      (s.s_battery_level = 0 → (battery_bar s bounds).width = 0) ∧
      (s.s_battery_level = 100 → (battery_bar s bounds).width = bounds.size.w) := by
  obtain ⟨h1, h2⟩ := bar_width_vs_floor hp0 hp hW0 hW
  refine ⟨h1, h2, fun h0 => ?_, fun h100 => ?_⟩
  · show bar_width s.s_battery_level bounds.size.w = 0
    rw [h0]; exact bar_width_zero_level _
  · show bar_width s.s_battery_level bounds.size.w = bounds.size.w
    rw [h100]; exact bar_width_full_level hW0 hW

theorem update_battery_width_near_floor_witness :
    (battery_bar (battery_callback init ⟨15⟩) ⟨⟨0, 0⟩, ⟨144, 10⟩⟩).width = 21 ∧
      (battery_bar (battery_callback init ⟨10⟩) ⟨⟨0, 0⟩, ⟨144, 10⟩⟩).width = 14 := by
  constructor
  · have h := (update_battery_width_near_floor (battery_callback init ⟨15⟩)
      ⟨⟨0, 0⟩, ⟨144, 10⟩⟩ (by decide) (by decide) (by decide) (by decide)).2.1 (by decide)
    rw [h, Int.floor_eq_iff]
    constructor <;> norm_num [battery_callback]
  · have h := (update_battery_width_near_floor (battery_callback init ⟨10⟩)
      ⟨⟨0, 0⟩, ⟨144, 10⟩⟩ (by decide) (by decide) (by decide) (by decide)).2.1 (by decide)
    rw [h, Int.floor_eq_iff]
    constructor <;> norm_num [battery_callback]

/-- C2: for every level in `0..100` and layer width `W` in `0..32767` the
starting x-coordinate computed by `update_battery` is
`floor((W - barWidth) / 2)` for the width it computed. -/
theorem update_battery_xCoord (s : AppState) (bounds : GRect)
    (hp0 : 0 ≤ s.s_battery_level) (hp : s.s_battery_level ≤ 100)
    (hW0 : 0 ≤ bounds.size.w) (hW : bounds.size.w ≤ INT16_MAX) :
    (battery_bar s bounds).xCoord
      = ⌊((bounds.size.w - (battery_bar s bounds).width : ℤ) : ℚ) / 2⌋ := by
  obtain ⟨_, h2⟩ := bar_width_bounds hp0 hp hW0 hW
  rw [floor_half]
  show (bounds.size.w - bar_width s.s_battery_level bounds.size.w).tdiv 2 = _
  rw [Int.tdiv_eq_ediv (by omega) (by norm_num)]
  rfl

theorem update_battery_xCoord_witness :
    (battery_bar (battery_callback init ⟨15⟩) ⟨⟨0, 0⟩, ⟨144, 10⟩⟩).xCoord = 61 ∧
      (battery_bar (battery_callback init ⟨10⟩) ⟨⟨0, 0⟩, ⟨144, 10⟩⟩).xCoord = 65 := by
  constructor
  · have h := update_battery_xCoord (battery_callback init ⟨15⟩) ⟨⟨0, 0⟩, ⟨144, 10⟩⟩
      (by decide) (by decide) (by decide) (by decide)
    have hw : (battery_bar (battery_callback init ⟨15⟩) ⟨⟨0, 0⟩, ⟨144, 10⟩⟩).width = 21 :=
      bar_width_15_144
    rw [h, hw, Int.floor_eq_iff]
    constructor <;> norm_num
  · have h := update_battery_xCoord (battery_callback init ⟨10⟩) ⟨⟨0, 0⟩, ⟨144, 10⟩⟩
      (by decide) (by decide) (by decide) (by decide)
    have hw : (battery_bar (battery_callback init ⟨10⟩) ⟨⟨0, 0⟩, ⟨144, 10⟩⟩).width = 14 :=
      bar_width_10_144
    rw [h, hw, Int.floor_eq_iff]
    constructor <;> norm_num

/-- C3: in every state that keeps the element colour set by `init`, for every
battery level and layer bounds, `update_battery` fills the bounds and then
the bar, and the bar is filled in the low-battery red exactly when the
computed width is at most 20 pixels, and in the element colour otherwise. -/
theorem update_battery_color (s : AppState) (bounds : GRect)
    (hcol : s.s_element_color = init.s_element_color) :
    ∃ (bar : GRect) (color : GColor),
      filled_rects none (update_battery s bounds)
          = [(bounds, some s.s_background_color), (bar, some color)] ∧
        bar.size.w = to_int16 (bar_width s.s_battery_level bounds.size.w) ∧
        (color = GColor.GColorRed ↔ bar_width s.s_battery_level bounds.size.w ≤ 20) ∧
        (¬ bar_width s.s_battery_level bounds.size.w ≤ 20 → color = s.s_element_color) := by
  have hwhite : s.s_element_color = GColor.GColorWhite := hcol
  refine ⟨_, _, filled_rects_update_battery s bounds, rfl, ?_, ?_⟩
  · by_cases h : bar_width s.s_battery_level bounds.size.w ≤ 20
    · simp [h]
    · simp [h, hwhite]
  · intro h
    simp [h]

theorem update_battery_color_witness :
    (∃ bar : GRect,
        filled_rects none (update_battery (battery_callback init ⟨15⟩) ⟨⟨0, 0⟩, ⟨144, 10⟩⟩)
          = [(⟨⟨0, 0⟩, ⟨144, 10⟩⟩, some GColor.GColorBlueMoon),
              (bar, some GColor.GColorWhite)]) ∧
      (∃ bar : GRect,
        filled_rects none (update_battery (battery_callback init ⟨10⟩) ⟨⟨0, 0⟩, ⟨144, 10⟩⟩)
          = [(⟨⟨0, 0⟩, ⟨144, 10⟩⟩, some GColor.GColorBlueMoon),
              (bar, some GColor.GColorRed)]) := by
  constructor
  · obtain ⟨bar, color, hf, _, _, helse⟩ :=
      update_battery_color (battery_callback init ⟨15⟩) ⟨⟨0, 0⟩, ⟨144, 10⟩⟩ rfl
    have hc : color = GColor.GColorWhite :=
      helse (by
        show ¬ bar_width 15 144 ≤ 20
        rw [bar_width_15_144]; decide)
    rw [hc] at hf
    exact ⟨bar, hf⟩
  · obtain ⟨bar, color, hf, _, hiff, _⟩ :=
      update_battery_color (battery_callback init ⟨10⟩) ⟨⟨0, 0⟩, ⟨144, 10⟩⟩ rfl
    have hc : color = GColor.GColorRed :=
      hiff.mpr (by
        show bar_width 10 144 ≤ 20
        rw [bar_width_10_144]; decide)
    rw [hc] at hf
    exact ⟨bar, hf⟩

/-- C4 (as stated, refuted): at level 101 on a layer 32767 wide the computed
width is 33094 and the computed x-coordinate -163, but the rectangle handed
to the second fill has width -32442: `GRect` stores `int16_t`. -/
theorem update_battery_fills_narrowed :
    (battery_bar (battery_callback init ⟨101⟩) ⟨⟨0, 0⟩, ⟨32767, 10⟩⟩).width = 33094 ∧
      (battery_bar (battery_callback init ⟨101⟩) ⟨⟨0, 0⟩, ⟨32767, 10⟩⟩).xCoord = -163 ∧
      filled_rects none (update_battery (battery_callback init ⟨101⟩) ⟨⟨0, 0⟩, ⟨32767, 10⟩⟩)
        = [(⟨⟨0, 0⟩, ⟨32767, 10⟩⟩, some GColor.GColorBlueMoon),
            (⟨⟨-163, 0⟩, ⟨-32442, 10⟩⟩, some GColor.GColorWhite)] ∧
      filled_rects none (update_battery (battery_callback init ⟨101⟩) ⟨⟨0, 0⟩, ⟨32767, 10⟩⟩)
        ≠ [(⟨⟨0, 0⟩, ⟨32767, 10⟩⟩, some GColor.GColorBlueMoon),
            (⟨⟨-163, 0⟩, ⟨33094, 10⟩⟩, some GColor.GColorWhite)] := by
  have hw : bar_width ((battery_callback init ⟨101⟩).s_battery_level) 32767 = 33094 :=
    bar_width_101_32767
  have hf := filled_rects_update_battery (battery_callback init ⟨101⟩) ⟨⟨0, 0⟩, ⟨32767, 10⟩⟩
  simp only [hw] at hf
  have hfills :
      filled_rects none (update_battery (battery_callback init ⟨101⟩) ⟨⟨0, 0⟩, ⟨32767, 10⟩⟩)
        = [(⟨⟨0, 0⟩, ⟨32767, 10⟩⟩, some GColor.GColorBlueMoon),
            (⟨⟨-163, 0⟩, ⟨-32442, 10⟩⟩, some GColor.GColorWhite)] := by
    rw [hf]
    decide
  refine ⟨bar_width_101_32767, ?_, hfills, ?_⟩
  · show ((32767 : ℤ) - bar_width 101 32767).tdiv 2 = -163
    rw [bar_width_101_32767]
    decide
  · rw [hfills]
    decide

/-- C4 (amended): for every state and layer bounds whose computed bar width
fits `int16_t`, `update_battery` fills exactly two rectangles, in this order:
the whole bounds in the background colour, then the rectangle at `(barX, 0)`
of size `(barWidth, H)` in the bar colour, where `barX` is
`(W - barWidth) / 2` in C division and the bar colour is red up to width 20
and the element colour above.  The width fits for every level in `0..100` on
a layer of non-negative width. -/
theorem update_battery_fills (s : AppState) (bounds : GRect)
    (hW : is_int16 bounds.size.w) (hH : is_int16 bounds.size.h) :
    (is_int16 (bar_width s.s_battery_level bounds.size.w) →
        filled_rects none (update_battery s bounds)
          = [(bounds, some s.s_background_color),
              ({ origin :=
                    { x := (bounds.size.w - bar_width s.s_battery_level bounds.size.w).tdiv 2,
                      y := 0 },
                 size :=
                    { w := bar_width s.s_battery_level bounds.size.w, h := bounds.size.h } },
                some (if bar_width s.s_battery_level bounds.size.w ≤ 20 then GColor.GColorRed
                  else s.s_element_color))]) ∧
      (0 ≤ s.s_battery_level → s.s_battery_level ≤ 100 → 0 ≤ bounds.size.w →
        is_int16 (bar_width s.s_battery_level bounds.size.w)) := by
  constructor
  · intro hfit
    rw [filled_rects_update_battery]
    unfold GRect.make
    rw [to_int16_eq hfit, to_int16_eq hH, to_int16_eq (is_int16_tdiv_two hW hfit),
      to_int16_eq (show is_int16 0 by decide)]
  · intro hp0 hp hW0
    obtain ⟨h1, h2⟩ := bar_width_bounds hp0 hp hW0 hW.2
    unfold is_int16 at hW ⊢
    omega

theorem update_battery_fills_witness :
    filled_rects none (update_battery (battery_callback init ⟨15⟩) ⟨⟨0, 0⟩, ⟨144, 10⟩⟩)
      = [(⟨⟨0, 0⟩, ⟨144, 10⟩⟩, some GColor.GColorBlueMoon),
          (⟨⟨61, 0⟩, ⟨21, 10⟩⟩, some GColor.GColorWhite)] := by
  have hw : bar_width ((battery_callback init ⟨15⟩).s_battery_level) 144 = 21 :=
    bar_width_15_144
  have h := (update_battery_fills (battery_callback init ⟨15⟩) ⟨⟨0, 0⟩, ⟨144, 10⟩⟩
    (by decide) (by decide)).1 (by
      show is_int16 (bar_width ((battery_callback init ⟨15⟩).s_battery_level) 144)
      rw [hw]; decide)
  simp only [hw] at h
  rw [h]
  decide

/-- C9 (as stated, refuted): on a layer 99 pixels wide level 101 yields a bar
of width 99, not above the layer width, and level -1 yields width 0, not
below 0. -/
theorem update_battery_unclamped_not_strict :
    (battery_bar (battery_callback init ⟨101⟩) ⟨⟨0, 0⟩, ⟨99, 10⟩⟩).width = 99 ∧
      ¬ (99 < (battery_bar (battery_callback init ⟨101⟩) ⟨⟨0, 0⟩, ⟨99, 10⟩⟩).width) ∧
      (battery_bar { init with s_battery_level := -1 } ⟨⟨0, 0⟩, ⟨99, 10⟩⟩).width = 0 ∧
      ¬ ((battery_bar { init with s_battery_level := -1 } ⟨⟨0, 0⟩, ⟨99, 10⟩⟩).width < 0) := by
  have h1 : (battery_bar (battery_callback init ⟨101⟩) ⟨⟨0, 0⟩, ⟨99, 10⟩⟩).width = 99 :=
    bar_width_101_99
  have h2 : (battery_bar { init with s_battery_level := -1 } ⟨⟨0, 0⟩, ⟨99, 10⟩⟩).width = 0 :=
    bar_width_neg1_99
  refine ⟨h1, ?_, h2, ?_⟩
  · rw [h1]; decide
  · rw [h2]; decide

/-- C9 (amended): `update_battery` does not clamp the level: for every level
outside `0..100` and every layer width `W` in `100..32767` the computed width
is below 0 when the level is below 0 and above `W` when the level is above
100; for `W` in `1..99` it is at most 0, respectively at least `W`. -/
theorem update_battery_unclamped (s : AppState) (bounds : GRect)
    (hW0 : 0 < bounds.size.w) (hW : bounds.size.w ≤ INT16_MAX) :
    (s.s_battery_level < 0 →
        (battery_bar s bounds).width ≤ 0 ∧
          (100 ≤ bounds.size.w → (battery_bar s bounds).width < 0)) ∧
      (100 < s.s_battery_level →
        bounds.size.w ≤ (battery_bar s bounds).width ∧
          (100 ≤ bounds.size.w → bounds.size.w < (battery_bar s bounds).width)) :=
  ⟨fun h => ⟨bar_width_nonpos_of_neg h hW0.le hW, fun h100 => bar_width_neg_of_neg h h100 hW⟩,
    fun h => ⟨le_bar_width_of_gt h hW0.le hW, fun h100 => lt_bar_width_of_gt h h100 hW⟩⟩

theorem update_battery_unclamped_witness :
    (144 : ℤ) < (battery_bar (battery_callback init ⟨255⟩) ⟨⟨0, 0⟩, ⟨144, 10⟩⟩).width ∧
      (battery_bar { init with s_battery_level := -10 } ⟨⟨0, 0⟩, ⟨144, 10⟩⟩).width < 0 :=
  ⟨((update_battery_unclamped (battery_callback init ⟨255⟩) ⟨⟨0, 0⟩, ⟨144, 10⟩⟩
      (by decide) (by decide)).2 (by decide)).2 (by decide),
    ((update_battery_unclamped { init with s_battery_level := -10 } ⟨⟨0, 0⟩, ⟨144, 10⟩⟩
      (by decide) (by decide)).1 (by decide)).2 (by decide)⟩

/-- C10: for every level in `0..100` and layer width `W` in `0..32767` the bar
lies inside the layer and is centred: `0 ≤ barX`, `barX + barWidth ≤ W`, and
the right margin exceeds the left margin by 0 or 1. -/
theorem update_battery_centred (s : AppState) (bounds : GRect)
    (hp0 : 0 ≤ s.s_battery_level) (hp : s.s_battery_level ≤ 100)
    (hW0 : 0 ≤ bounds.size.w) (hW : bounds.size.w ≤ INT16_MAX) :
    0 ≤ (battery_bar s bounds).xCoord ∧
      (battery_bar s bounds).xCoord + (battery_bar s bounds).width ≤ bounds.size.w ∧
      ((bounds.size.w - (battery_bar s bounds).xCoord - (battery_bar s bounds).width)
            - (battery_bar s bounds).xCoord = 0 ∨
        (bounds.size.w - (battery_bar s bounds).xCoord - (battery_bar s bounds).width)
            - (battery_bar s bounds).xCoord = 1) := by
  obtain ⟨h1, h2⟩ := bar_width_bounds hp0 hp hW0 hW
  have hx : (battery_bar s bounds).xCoord
      = (bounds.size.w - bar_width s.s_battery_level bounds.size.w) / 2 := by
    show (bounds.size.w - bar_width s.s_battery_level bounds.size.w).tdiv 2 = _
    exact Int.tdiv_eq_ediv (by omega) (by norm_num)
  have hwd : (battery_bar s bounds).width = bar_width s.s_battery_level bounds.size.w := rfl
  rw [hx, hwd]
  omega

theorem update_battery_centred_witness :
    0 ≤ (battery_bar (battery_callback init ⟨15⟩) ⟨⟨0, 0⟩, ⟨144, 10⟩⟩).xCoord ∧
      (battery_bar (battery_callback init ⟨15⟩) ⟨⟨0, 0⟩, ⟨144, 10⟩⟩).xCoord
        + (battery_bar (battery_callback init ⟨15⟩) ⟨⟨0, 0⟩, ⟨144, 10⟩⟩).width ≤ 144 ∧
      ((144 - (battery_bar (battery_callback init ⟨15⟩) ⟨⟨0, 0⟩, ⟨144, 10⟩⟩).xCoord
            - (battery_bar (battery_callback init ⟨15⟩) ⟨⟨0, 0⟩, ⟨144, 10⟩⟩).width)
            - (battery_bar (battery_callback init ⟨15⟩) ⟨⟨0, 0⟩, ⟨144, 10⟩⟩).xCoord = 0 ∨
        (144 - (battery_bar (battery_callback init ⟨15⟩) ⟨⟨0, 0⟩, ⟨144, 10⟩⟩).xCoord
            - (battery_bar (battery_callback init ⟨15⟩) ⟨⟨0, 0⟩, ⟨144, 10⟩⟩).width)
            - (battery_bar (battery_callback init ⟨15⟩) ⟨⟨0, 0⟩, ⟨144, 10⟩⟩).xCoord = 1) :=
  update_battery_centred (battery_callback init ⟨15⟩) ⟨⟨0, 0⟩, ⟨144, 10⟩⟩
    (by decide) (by decide) (by decide) (by decide)

end IWatchFace
